import Mathlib

/-!
# Verification of the drcov coverage-trace analyzer

Shallow embedding of `src/analyze_drcov.py` (the coverage-trace parser and
correlation engine).  Byte streams are modelled as `List Nat` (byte values),
decoded text as `List Char`, Python sets of offsets as `Finset Nat`,
Python floats as `ℚ` (no claim depends on rounding), and Python exceptions
as `Except PyErr`.  Paths where the source catches an exception locally are
modelled with `Option`.
-/

namespace Drcov

/-- Python exceptions that can escape `parse_drcov_file`. -/
inductive PyErr where
  | zeroDivision : PyErr
  | valueError : PyErr
deriving DecidableEq, Repr

/-! ## Generic list text/byte utilities (Python `str`/`bytes` operations) -/

/-- `l.startswith(p)` on lists (Python `startswith`). -/
def listStartsWith {α : Type} [DecidableEq α] : List α → List α → Bool
  | _, [] => true
  | [], _ :: _ => false
  | a :: l, b :: p => if a = b then listStartsWith l p else false

/-- Helper for `findSub`: first index `≥ i` where `p` occurs in the remaining list. -/
def findSubAux {α : Type} [DecidableEq α] (p : List α) : List α → Nat → Option Nat
  | [], i => if listStartsWith ([] : List α) p then some i else none
  | a :: t, i => if listStartsWith (a :: t) p then some i else findSubAux p t (i + 1)

/-- Python `l.find(p)`: index of the first occurrence of `p` in `l`, if any. -/
def findSub {α : Type} [DecidableEq α] (l p : List α) : Option Nat :=
  findSubAux p l 0

/-- Python `l.find(p, start)`: first occurrence of `p` at an index `≥ start`. -/
def findSubFrom {α : Type} [DecidableEq α] (l p : List α) (start : Nat) : Option Nat :=
  (findSub (l.drop start) p).map (· + start)

/-- Python `p in l` substring test. -/
def containsSubList {α : Type} [DecidableEq α] (l p : List α) : Bool :=
  (findSub l p).isSome

/-- The cited characterization of `listStartsWith`. -/
theorem listStartsWith_iff {α : Type} [DecidableEq α] :
    ∀ (l p : List α), listStartsWith l p = true ↔ l.take p.length = p := by
  intro l p
  induction p generalizing l with
  | nil => simp [listStartsWith]
  | cons b p ih =>
    cases l with
    | nil => simp [listStartsWith]
    | cons a l =>
      simp only [listStartsWith, List.length_cons, List.take_succ_cons]
      constructor
      · intro h
        split at h
        · next heq => subst heq; simp [(ih l).mp h]
        · exact absurd h (by simp)
      · intro h
        obtain ⟨h1, h2⟩ := List.cons.inj h
        simp [h1, (ih l).mpr h2]

theorem findSubAux_isSome {α : Type} [DecidableEq α] (p : List α) :
    ∀ (l : List α) (i : Nat),
      (findSubAux p l i).isSome = true ↔ ∃ j, (l.drop j).take p.length = p := by
  intro l
  induction l with
  | nil =>
    intro i
    simp only [findSubAux]
    constructor
    · intro h
      split at h
      · next hs => exact ⟨0, by simpa using (listStartsWith_iff [] p).mp hs⟩
      · simp at h
    · rintro ⟨j, hj⟩
      simp only [List.drop_nil] at hj
      rw [if_pos ((listStartsWith_iff [] p).mpr hj)]
      rfl
  | cons a t ih =>
    intro i
    simp only [findSubAux]
    constructor
    · intro h
      split at h
      · next hs => exact ⟨0, by simpa using (listStartsWith_iff (a :: t) p).mp hs⟩
      · obtain ⟨j, hj⟩ := (ih (i + 1)).mp h
        exact ⟨j + 1, by simpa using hj⟩
    · rintro ⟨j, hj⟩
      split
      · rfl
      · next hs =>
        apply (ih (i + 1)).mpr
        cases j with
        | zero =>
          simp only [List.drop_zero] at hj
          exact absurd ((listStartsWith_iff (a :: t) p).mpr hj) (by simp [hs])
        | succ j => exact ⟨j, by simpa using hj⟩

/-- `findSub l p` succeeds exactly when `p` occurs as a contiguous sublist of `l`. -/
theorem findSub_isSome_iff {α : Type} [DecidableEq α] (l p : List α) :
    (findSub l p).isSome = true ↔ ∃ j, (l.drop j).take p.length = p :=
  findSubAux_isSome p l 0

theorem findSub_eq_none {α : Type} [DecidableEq α] (l p : List α)
    (h : ∀ j, (l.drop j).take p.length ≠ p) : findSub l p = none := by
  rcases hs : findSub l p with _ | i
  · rfl
  · exfalso
    obtain ⟨j, hj⟩ := (findSub_isSome_iff l p).mp (by simp [hs])
    exact h j hj

/-! ## Python text primitives over `List Char` -/

/-- Python `str` whitespace (`str.strip` / `str.split` default class). -/
def pyIsSpace (c : Char) : Bool :=
  c = ' ' || c = '\t' || c = '\n' || c = '\x0d' || c = Char.ofNat 11 || c = Char.ofNat 12

/-- Python `s.strip()`. -/
def stripChars (l : List Char) : List Char :=
  ((l.dropWhile pyIsSpace).reverse.dropWhile pyIsSpace).reverse

/-- Python `s.split(c)` for a one-character separator (keeps empty fields). -/
def splitOnChar (c : Char) : List Char → List (List Char)
  | [] => [[]]
  | a :: t =>
    if a = c then [] :: splitOnChar c t
    else
      match splitOnChar c t with
      | [] => [[a]]
      | h :: rest => (a :: h) :: rest

/-- Helper for `pySplitWs` carrying the current (reversed) word. -/
def splitWsAux : List Char → List Char → List (List Char)
  | [], acc => if acc = [] then [] else [acc.reverse]
  | a :: t, acc =>
    if pyIsSpace a then
      if acc = [] then splitWsAux t [] else acc.reverse :: splitWsAux t []
    else splitWsAux t (a :: acc)

/-- Python `s.split()` (split on whitespace runs, dropping empty fields). -/
def pySplitWs (l : List Char) : List (List Char) :=
  splitWsAux l []

/-- Helper for `splitOnSub` with explicit fuel (the separator is non-empty in
all uses, so `l.length + 1` fuel always suffices). -/
def splitOnSubAux (sep : List Char) : Nat → List Char → List (List Char)
  | 0, l => [l]
  | fuel + 1, l =>
    match findSub l sep with
    | none => [l]
    | some i => l.take i :: splitOnSubAux sep fuel (l.drop (i + sep.length))

/-- Python `s.split(sep)` for a multi-character separator. -/
def splitOnSub (sep l : List Char) : List (List Char) :=
  splitOnSubAux sep (l.length + 1) l

/-- Python `int(s)` (restricted to unsigned decimal digit strings; the traces
the analyzer reads only ever put such strings in the parsed positions). -/
def pyIntDec (l : List Char) : Option Nat :=
  if l ≠ [] && l.all Char.isDigit then
    some (l.foldl (fun a c => 10 * a + (c.toNat - 48)) 0)
  else none

def isHexDigitChar (c : Char) : Bool :=
  c.isDigit || (97 ≤ c.toNat && c.toNat ≤ 102) || (65 ≤ c.toNat && c.toNat ≤ 70)

def hexDigitVal (c : Char) : Nat :=
  if c.isDigit then c.toNat - 48
  else if 97 ≤ c.toNat then c.toNat - 87
  else c.toNat - 55

/-- Python `int(s, 16)` (unsigned, with an optional `0x`/`0X` marker). -/
def pyIntHex (l : List Char) : Option Nat :=
  let body :=
    if listStartsWith l ['0', 'x'] || listStartsWith l ['0', 'X'] then l.drop 2 else l
  if body ≠ [] && body.all isHexDigitChar then
    some (body.foldl (fun a c => 16 * a + hexDigitVal c) 0)
  else none

/-- The source decodes the text prologue as UTF-8 with `errors="replace"`;
bytes are decoded ASCII-wise here, any byte `≥ 0x80` becoming the replacement
character (on the ASCII prologues the analyzer consumes the two coincide). -/
def decodeBytes (bs : List Nat) : List Char :=
  bs.map (fun b => if b < 128 then Char.ofNat b else Char.ofNat 0xFFFD)

/-! ## Trace decoder: binary basic-block records (`parse_drcov_file`, lines 194–236) -/

/-- `BasicBlockRecord`: one 8-byte entry of the binary record stream. -/
structure BBRec where
  module_id : Nat
  offset : Nat
  size : Nat
deriving DecidableEq, Repr

/-- One record decoded from its 8 bytes, little-endian:
`uint32 offset` (bytes 0–3), `uint16 size` (bytes 4–5), `uint16 module_id`
(bytes 6–7) — `struct.unpack_from("<I", b, 0)`, `("<H", b, 4)`, `("<H", b, 6)`. -/
def decodeRecord (b : List Nat) : BBRec :=
  { offset := b.getD 0 0 + 256 * b.getD 1 0 + 65536 * b.getD 2 0 + 16777216 * b.getD 3 0
    size := b.getD 4 0 + 256 * b.getD 5 0
    module_id := b.getD 6 0 + 256 * b.getD 7 0 }

/-- The decode loop: `while offset + entry_size <= len(binary_data) and
len(bb_entries) < bb_count`, reading 8 bytes per record. -/
def decodeRecords : Nat → List Nat → List BBRec
  | 0, _ => []
  | k + 1, data =>
    if 8 ≤ data.length then decodeRecord (data.take 8) :: decodeRecords k (data.drop 8)
    else []

/-- The little-endian encoding of a record, inverse of `decodeRecord`
(used to build the synthetic traces of the round-trip property). -/
def encodeRecord (bb : BBRec) : List Nat :=
  [bb.offset % 256, bb.offset / 256 % 256, bb.offset / 65536 % 256, bb.offset / 16777216 % 256,
   bb.size % 256, bb.size / 256 % 256, bb.module_id % 256, bb.module_id / 256 % 256]

theorem encodeRecord_length (bb : BBRec) : (encodeRecord bb).length = 8 := rfl

theorem decodeRecord_encodeRecord (bb : BBRec)
    (h1 : bb.offset < 4294967296) (h2 : bb.size < 65536) (h3 : bb.module_id < 65536) :
    decodeRecord (encodeRecord bb) = bb := by
  cases bb with
  | mk m o s =>
    simp only [encodeRecord, decodeRecord] at *
    simp only [List.getD_cons_zero, List.getD_cons_succ]
    congr 1 <;> omega

theorem decodeRecords_encode (records : List BBRec)
    (h : ∀ bb ∈ records, bb.offset < 4294967296 ∧ bb.size < 65536 ∧ bb.module_id < 65536) :
    decodeRecords records.length (records.flatMap encodeRecord) = records := by
  induction records with
  | nil => rfl
  | cons bb rest ih =>
    have hlen : (encodeRecord bb).length = 8 := encodeRecord_length bb
    simp only [List.length_cons, List.flatMap_cons, decodeRecords]
    rw [if_pos (by simp [List.length_append, hlen])]
    rw [show (8 : Nat) = (encodeRecord bb).length from hlen.symm,
        List.take_left, List.drop_left]
    obtain ⟨h1, h2, h3⟩ := h bb (by simp)
    rw [decodeRecord_encodeRecord bb h1 h2 h3,
        ih (fun b hb => h b (List.mem_cons_of_mem bb hb))]

theorem decodeRecords_length (bbCount : Nat) :
    ∀ data : List Nat, (decodeRecords bbCount data).length = min bbCount (data.length / 8) := by
  induction bbCount with
  | zero => intro data; simp [decodeRecords]
  | succ k ih =>
    intro data
    simp only [decodeRecords]
    split
    · next hle =>
      simp only [List.length_cons, ih (data.drop 8), List.length_drop]
      omega
    · next hlt =>
      simp only [List.length_nil]
      omega

theorem decodeRecords_drop_tail (bbCount : Nat) :
    ∀ (data extra : List Nat), data.length % 8 = 0 → extra.length < 8 →
      decodeRecords bbCount (data ++ extra) = decodeRecords bbCount data := by
  induction bbCount with
  | zero => intro data extra _ _; rfl
  | succ k ih =>
    intro data extra hmod hlt
    by_cases hle : 8 ≤ data.length
    · simp only [decodeRecords]
      rw [if_pos (by simp [List.length_append]; omega), if_pos hle,
          List.take_append_of_le_length hle, List.drop_append_of_le_length hle]
      rw [ih (data.drop 8) extra (by simp [List.length_drop]; omega) hlt]
    · have hzero : data.length = 0 := by omega
      have hnil : data = [] := List.eq_nil_of_length_eq_zero hzero
      subst hnil
      simp only [List.nil_append, decodeRecords]
      rw [if_neg (by omega)]
      simp

/-! ## Coverage aggregator: `CoveredByteSet` (`parse_drcov_file`, lines 225–232) -/

/-- The byte offsets `[offset, offset + size)` of one basic block. -/
def blockBytes (bb : BBRec) : Finset Nat :=
  (Finset.range bb.size).image (fun i => bb.offset + i)

/-- `target_bytes_covered`: every target record's bytes inserted into one set
(`for i in range(size): target_bytes_covered.add(start_offset + i)`). -/
def coveredBytes (tbs : List BBRec) : Finset Nat :=
  tbs.foldl (fun s bb => s ∪ blockBytes bb) ∅

theorem mem_blockBytes (bb : BBRec) (x : Nat) :
    x ∈ blockBytes bb ↔ bb.offset ≤ x ∧ x < bb.offset + bb.size := by
  simp only [blockBytes, Finset.mem_image, Finset.mem_range]
  constructor
  · rintro ⟨i, hi, rfl⟩; omega
  · rintro ⟨h1, h2⟩; exact ⟨x - bb.offset, by omega, by omega⟩

theorem coveredBytes_from (tbs : List BBRec) :
    ∀ (s : Finset Nat) (x : Nat),
      x ∈ tbs.foldl (fun s bb => s ∪ blockBytes bb) s ↔
        x ∈ s ∨ ∃ bb ∈ tbs, bb.offset ≤ x ∧ x < bb.offset + bb.size := by
  induction tbs with
  | nil => intro s x; simp
  | cons bb rest ih =>
    intro s x
    simp only [List.foldl_cons, ih, Finset.mem_union, mem_blockBytes, List.mem_cons]
    constructor
    · rintro ((h | h) | ⟨b, hb, h⟩)
      · exact Or.inl h
      · exact Or.inr ⟨bb, Or.inl rfl, h⟩
      · exact Or.inr ⟨b, Or.inr hb, h⟩
    · rintro (h | ⟨b, (rfl | hb), h⟩)
      · exact Or.inl (Or.inl h)
      · exact Or.inl (Or.inr h)
      · exact Or.inr ⟨b, hb, h⟩

theorem mem_coveredBytes (tbs : List BBRec) (x : Nat) :
    x ∈ coveredBytes tbs ↔ ∃ bb ∈ tbs, bb.offset ≤ x ∧ x < bb.offset + bb.size := by
  simpa using coveredBytes_from tbs ∅ x

theorem coveredBytes_append (tbs more : List BBRec) (x : Nat) :
    x ∈ coveredBytes (tbs ++ more) ↔ x ∈ coveredBytes tbs ∨ x ∈ coveredBytes more := by
  simp only [mem_coveredBytes, List.mem_append]
  constructor
  · rintro ⟨bb, (h | h), hx⟩
    · exact Or.inl ⟨bb, h, hx⟩
    · exact Or.inr ⟨bb, h, hx⟩
  · rintro (⟨bb, h, hx⟩ | ⟨bb, h, hx⟩)
    · exact ⟨bb, Or.inl h, hx⟩
    · exact ⟨bb, Or.inr h, hx⟩

/-! ## Module table and resolver (`parse_drcov_file`, lines 132–176) -/

/-- One row of the trace's module table (`modules[mod_id]` dict). -/
structure Module where
  id : Nat
  start : Nat
  end_ : Nat
  size : Int
  path : List Char
deriving DecidableEq, Repr

/-- State of the module-table scan: the `modules` dict (association list keyed
by module id), the `Module Table:` header count, and `target_module`. -/
structure ModAcc where
  modules : List (Nat × Module)
  moduleCount : Nat
  target : Option Module
deriving DecidableEq, Repr

/-- Python dict assignment `modules[mod_id] = m`. -/
def assocSet : List (Nat × Module) → Nat → Module → List (Nat × Module)
  | [], k, v => [(k, v)]
  | (k', v') :: t, k, v =>
    if k' = k then (k, v) :: t else (k', v') :: assocSet t k v

def mtHeaderChars : List Char := "Module Table:".toList

def countWordChars : List Char := "count".toList

/-- The expected target file name (`"target.dll" in path`, line 165). -/
def targetLit : List Char := "target.dll".toList

/-- Line 146: `line.strip().startswith("0,") or (line.strip() and
line.strip()[0].isdigit())` — the module-row heuristic. -/
def isModuleRowLine (line : List Char) : Bool :=
  match stripChars line with
  | [] => false
  | c :: t => listStartsWith (c :: t) ['0', ','] || c.isDigit

/-- Lines 147–162: comma-split the row, strip fields, require ≥ 10 fields,
parse id (decimal) and start/end (hex); any parse failure skips the row
(the `except (ValueError, IndexError): pass`). -/
def parseModuleRow (line : List Char) : Option Module :=
  let parts := (splitOnChar ',' line).map stripChars
  if 10 ≤ parts.length then
    match pyIntDec (parts.getD 0 []), pyIntHex (parts.getD 2 []), pyIntHex (parts.getD 3 []) with
    | some mid, some st, some en =>
      some { id := mid, start := st, end_ := en,
             size := (en : Int) - (st : Int), path := stripChars (parts.getD 9 []) }
    | _, _, _ => none
  else none

/-- Line 165: the target test — a case-sensitive Python substring test
`"target.dll" in path`. -/
def moduleMatches (m : Module) : Bool :=
  containsSubList m.path targetLit

/-- One iteration of the `for line in lines` loop (lines 137–172). -/
def scanStep (acc : ModAcc) (line : List Char) : Except PyErr ModAcc :=
  if listStartsWith line mtHeaderChars then
    let parts := splitOnSub countWordChars line
    if 1 < parts.length then
      match pyIntDec (stripChars (parts.getD 1 [])) with
      | some c => .ok { acc with moduleCount := c }
      | none => .error .valueError
    else .ok acc
  else if isModuleRowLine line then
    match parseModuleRow line with
    | some m =>
      .ok { acc with
            modules := assocSet acc.modules m.id m,
            target := if moduleMatches m then some m else acc.target }
    | none => .ok acc
  else .ok acc

def scanModulesFrom (acc : ModAcc) : List (List Char) → Except PyErr ModAcc
  | [] => .ok acc
  | line :: rest =>
    match scanStep acc line with
    | .error e => .error e
    | .ok acc' => scanModulesFrom acc' rest

/-- The whole module-table scan over the prologue's lines. -/
def scanModules (lines : List (List Char)) : Except PyErr ModAcc :=
  scanModulesFrom { modules := [], moduleCount := 0, target := none } lines

/-- The `Module` a line contributes to `target_module` (if it is a module row
that parses and whose path matches), `none` otherwise. -/
def matchedModuleOfLine (line : List Char) : Option Module :=
  if listStartsWith line mtHeaderChars then none
  else if isModuleRowLine line then
    match parseModuleRow line with
    | some m => if moduleMatches m then some m else none
    | none => none
  else none

theorem scanStep_target (acc : ModAcc) (line : List Char) (acc' : ModAcc)
    (h : scanStep acc line = .ok acc') :
    acc'.target = (matchedModuleOfLine line).or acc.target := by
  unfold scanStep matchedModuleOfLine at *
  by_cases hmt : listStartsWith line mtHeaderChars = true
  · rw [if_pos hmt] at h ⊢
    simp only [Option.none_or]
    dsimp only at h
    split at h
    · split at h
      · rw [← Except.ok.inj h]
      · exact absurd h (by simp)
    · rw [← Except.ok.inj h]
  · rw [if_neg hmt] at h ⊢
    by_cases hrow : isModuleRowLine line = true
    · rw [if_pos hrow] at h ⊢
      cases hm : parseModuleRow line with
      | some m =>
        rw [hm] at h
        dsimp only at h
        rw [← Except.ok.inj h]
        by_cases hmatch : moduleMatches m = true
        · simp [hmatch]
        · simp [hmatch]
      | none =>
        rw [hm] at h
        dsimp only at h
        rw [← Except.ok.inj h]
        simp
    · rw [if_neg hrow] at h ⊢
      rw [← Except.ok.inj h]
      simp

theorem getLast?_cons_or {α : Type} (b : α) (xs : List α) :
    (b :: xs).getLast? = xs.getLast?.or (some b) := by
  induction xs generalizing b with
  | nil => rfl
  | cons c t ih =>
    rw [List.getLast?_cons_cons, ih c]
    cases h : t.getLast? with
    | none => simp [h]
    | some v => simp [h]

theorem scanModulesFrom_target (lines : List (List Char)) :
    ∀ (acc acc' : ModAcc), scanModulesFrom acc lines = .ok acc' →
      acc'.target = ((lines.filterMap matchedModuleOfLine).getLast?).or acc.target := by
  induction lines with
  | nil =>
    intro acc acc' h
    simp only [scanModulesFrom] at h
    rw [← Except.ok.inj h]
    simp
  | cons line rest ih =>
    intro acc acc' h
    simp only [scanModulesFrom] at h
    split at h
    · exact absurd h (by simp)
    · next acc1 hstep =>
      rw [ih acc1 acc' h, scanStep_target acc line acc1 hstep]
      simp only [List.filterMap_cons]
      cases hline : matchedModuleOfLine line with
      | none => simp
      | some m =>
        rw [getLast?_cons_or m (rest.filterMap matchedModuleOfLine)]
        cases hrest : (rest.filterMap matchedModuleOfLine).getLast? with
        | none => simp
        | some v => simp

/-- The resolver picks the module of the LAST matching row: each matching row
overwrites `target_module` (`parse_drcov_file` line 166). -/
theorem scanModules_target_last (lines : List (List Char)) (acc' : ModAcc)
    (h : scanModules lines = .ok acc') :
    acc'.target = (lines.filterMap matchedModuleOfLine).getLast? := by
  rw [scanModulesFrom_target lines _ acc' h]
  cases hl : (lines.filterMap matchedModuleOfLine).getLast? with
  | none => rfl
  | some v => rfl

/-! ## BB Table header (`parse_drcov_file`, lines 178–190) -/

def bbMarkerChars : List Char := "BB Table:".toList

def bbMarkerBytes : List Nat := bbMarkerChars.map Char.toNat

def bbsWordChars : List Char := "bbs".toList

/-- The scan `for i, p in enumerate(parts): if p == "bbs" and i > 0:
bb_count = int(parts[i-1]); break`, carrying the previous token. -/
def scanBbsFrom : List Char → List (List Char) → Except PyErr Nat
  | _, [] => .ok 0
  | prev, p :: rest =>
    if p = bbsWordChars then
      match pyIntDec prev with
      | some n => .ok n
      | none => .error .valueError
    else scanBbsFrom p rest

/-- Lines 184–190: extract `bb_count` from the decoded BB header line
(`bb_count = 0` when the marker or the `bbs` token is missing; a non-numeric
count token raises `ValueError`). -/
def parseBBCount (header : List Char) : Except PyErr Nat :=
  if containsSubList header bbMarkerChars then
    match pySplitWs header with
    | [] => .ok 0
    | p0 :: rest => scanBbsFrom p0 rest
  else .ok 0

/-- Line 180: `bb_header_end = content.find(b"\n", bb_header_start) + 1`
(Python `find` returns `-1` when absent, so the end index becomes `0`). -/
def bbHeaderEnd (content : List Nat) (text_end : Nat) : Nat :=
  match findSubFrom content [10] text_end with
  | some j => j + 1
  | none => 0

/-- Line 181: the decoded `content[bb_header_start:bb_header_end]`. -/
def bbHeaderStr (content : List Nat) (text_end : Nat) : List Char :=
  decodeBytes ((content.take (bbHeaderEnd content text_end)).drop text_end)

/-- Lines 129–130: the decoded, stripped text prologue split into lines. -/
def headerLines (content : List Nat) (text_end : Nat) : List (List Char) :=
  splitOnChar '\n' (stripChars (decodeBytes (content.take text_end)))

/-! ## Symbol correlator: export hit rule (`parse_drcov_file`, lines 266–282) -/

/-- The 29-entry `EXPORT_FUNCTIONS` table of the source. -/
def EXPORT_FUNCTIONS : List (List Char) :=
  ["Aud_InitDll".toList, "Aud_GetInterfaceVersion".toList, "Aud_GetDllVersion".toList,
   "Aud_OpenGetFile".toList, "Aud_CloseGetFile".toList, "Aud_GetNumberOfFiles".toList,
   "Aud_GetNumberOfChannels".toList, "Aud_FileExistsW".toList,
   "Aud_OpenPutFile".toList, "Aud_ClosePutFile".toList, "Aud_PutNumberOfChannels".toList,
   "Aud_MakeDirW".toList,
   "Aud_GetChannelDataDoubles".toList, "Aud_GetChannelDataOriginal".toList,
   "Aud_PutChannelDataDoubles".toList, "Aud_PutChannelDataOriginal".toList,
   "Aud_GetFileProperties".toList, "Aud_GetChannelProperties".toList,
   "Aud_PutFileProperties".toList, "Aud_PutChannelProperties".toList,
   "Aud_GetFileHeaderOriginal".toList, "Aud_PutFileHeaderOriginal".toList,
   "Aud_GetString".toList, "Aud_PutString".toList,
   "Aud_TextFileAOpenW".toList, "Aud_TextFileAClose".toList, "Aud_ReadLineAInFile".toList,
   "Aud_GetLastWarnings".toList, "Aud_GetErrDescription".toList]

/-- Dict lookup `export_addrs[func_name]` (`func_name in export_addrs`). -/
def lookupName (fn : List Char) : List (List Char × Nat) → Option Nat
  | [] => none
  | (n, a) :: t => if n = fn then some a else lookupName fn t

/-- Lines 270–273: `any(abs(bb["offset"] - func_addr) < 0x100 for bb in target_bbs)`. -/
def funcHit (target_bbs : List BBRec) (func_addr : Nat) : Bool :=
  target_bbs.any (fun bb => decide (((bb.offset : Int) - (func_addr : Int)).natAbs < 256))

/-- Lines 266–283: the count `exports_hit` over `EXPORT_FUNCTIONS`. -/
def exportsHitCount (exportAddrs : List (List Char × Nat)) (target_bbs : List BBRec) : Nat :=
  (EXPORT_FUNCTIONS.filter (fun fn =>
    match lookupName fn exportAddrs with
    | some addr => funcHit target_bbs addr
    | none => false)).length

/-! ## Application-code window and coverage (lines 296–311) -/

/-- `min(export_addrs.values())` for a non-empty dict (head/tail form). -/
def valsMin (v : Nat) (vs : List Nat) : Nat := vs.foldl min v

/-- `max(export_addrs.values())` for a non-empty dict (head/tail form). -/
def valsMax (v : Nat) (vs : List Nat) : Nat := vs.foldl max v

/-- Lines 296–306: application-code coverage over the export window
`[min(rvas), max(rvas) + 0x200)`; `0.0` for an empty export table (line 350). -/
def appCoverage (exportAddrs : List (List Char × Nat)) (target_bbs : List BBRec) : ℚ :=
  match exportAddrs with
  | [] => 0
  | e :: es =>
    let export_min := valsMin e.2 (es.map Prod.snd)
    let export_max := valsMax e.2 (es.map Prod.snd) + 0x200
    let app_code_size := export_max - export_min
    let app_bytes :=
      (coveredBytes target_bbs).filter (fun a => export_min ≤ a ∧ a < export_max)
    if 0 < app_code_size then
      100 * (app_bytes.card : ℚ) / (app_code_size : ℚ)
    else 0

/-! ## Report builder and the division steps (lines 243–262, 284, 352–362) -/

/-- Python float division: raises `ZeroDivisionError` on a zero denominator. -/
def pyDiv (a b : ℚ) : Except PyErr ℚ :=
  if b = 0 then .error .zeroDivision else .ok (a / b)

/-- `CoverageReport`: the dict returned by `parse_drcov_file` (lines 352–362). -/
structure CoverageReport where
  module : Module
  total_bbs : Nat
  target_bbs : Nat
  bytes_covered : Nat
  coverage_percent : ℚ
  app_coverage_percent : ℚ
  export_coverage : ℚ
  exports_hit : Nat
  exports_total : Nat
deriving DecidableEq, Repr

/-- Lines 243–362 after the records are decoded: the coverage percentages
(the unguarded `100.0 * len(target_bytes_covered) / dll_size` first), the
export hit loop, the application-code window, and the returned report.
`textInfo = (text_vma, code_section_size)` and `exportAddrs` stand for the
outputs of the external `objdump` collaborators. -/
def analyze (target : Module) (bb_count : Nat) (target_bbs : List BBRec)
    (covered : Finset Nat) (textInfo : Nat × Nat)
    (exportAddrs : List (List Char × Nat)) : Except PyErr CoverageReport :=
  match pyDiv (100 * (covered.card : ℚ)) ((target.size : ℚ)) with
  | .error e => .error e
  | .ok _coverage_of_total =>
    match pyDiv (100 * (covered.card : ℚ)) ((textInfo.2 : ℚ)) with
    | .error e => .error e
    | .ok coverage_of_code =>
      let exports_hit := exportsHitCount exportAddrs target_bbs
      match pyDiv (100 * (exports_hit : ℚ)) ((EXPORT_FUNCTIONS.length : ℚ)) with
      | .error e => .error e
      | .ok export_coverage =>
        .ok { module := target
              total_bbs := bb_count
              target_bbs := target_bbs.length
              bytes_covered := covered.card
              coverage_percent := coverage_of_code
              app_coverage_percent := appCoverage exportAddrs target_bbs
              export_coverage := export_coverage
              exports_hit := exports_hit
              exports_total := EXPORT_FUNCTIONS.length }

/-- `parse_drcov_file`, composed: marker search, prologue parse, resolver
check, BB header parse, record decode, aggregation, correlation, report.
`.ok none` models the `return None` paths, `.error` an escaping exception. -/
def parse_drcov_file (content : List Nat) (textInfo : Nat × Nat)
    (exportAddrs : List (List Char × Nat)) : Except PyErr (Option CoverageReport) :=
  match findSub content bbMarkerBytes with
  | none => .ok none
  | some text_end =>
    match scanModules (headerLines content text_end) with
    | .error e => .error e
    | .ok acc =>
      match acc.target with
      | none => .ok none
      | some target =>
        match parseBBCount (bbHeaderStr content text_end) with
        | .error e => .error e
        | .ok bb_count =>
          let binary_data := content.drop (bbHeaderEnd content text_end)
          let entries := decodeRecords bb_count binary_data
          let target_bbs := entries.filter (fun bb => bb.module_id = target.id)
          let covered := coveredBytes target_bbs
          match analyze target bb_count target_bbs covered textInfo exportAddrs with
          | .error e => .error e
          | .ok rep => .ok (some rep)

/-! ## Gap computation (`parse_drcov_file`, lines 313–331) -/

/-- Lines 319–328: merge consecutive uncovered addresses, carrying the open
run `[gs, ge]`; each emitted tuple is `(gap_start, gap_end, length)`. -/
def mergeLoop : Nat → Nat → List Nat → List (Nat × Nat × Nat)
  | gs, ge, [] => [(gs, ge, ge - gs + 1)]
  | gs, ge, a :: rest =>
    if a = ge + 1 then mergeLoop gs a rest
    else (gs, ge, ge - gs + 1) :: mergeLoop a a rest

/-- Lines 317–328: group the sorted uncovered addresses into maximal runs
(no gaps are produced for an empty uncovered list — `if uncovered:`). -/
def computeGaps : List Nat → List (Nat × Nat × Nat)
  | [] => []
  | a :: rest => mergeLoop a a rest

/-- Stable insertion keeping lengths descending (ties keep first-come order,
like Python's stable `gaps.sort(key=lambda x: -x[2])`). -/
def insertGapSorted (g : Nat × Nat × Nat) : List (Nat × Nat × Nat) → List (Nat × Nat × Nat)
  | [] => [g]
  | h :: t => if h.2.2 ≤ g.2.2 then g :: h :: t else h :: insertGapSorted g t

/-- Line 331: `gaps.sort(key=lambda x: -x[2])` — stable descending by length. -/
def sortGapsDesc : List (Nat × Nat × Nat) → List (Nat × Nat × Nat)
  | [] => []
  | g :: rest => insertGapSorted g (sortGapsDesc rest)

/-- Line 314–315: the sorted uncovered offsets
`sorted(set(range(export_min, export_max)) - app_bytes_covered)`. -/
def uncoveredList (lo n : Nat) (cov : Finset Nat) : List Nat :=
  (List.range' lo n).filter (fun a => decide (a ∉ cov))

/-- Offset `x` lies in the application-code window `[lo, lo + n)` and is not
covered. -/
def winUncov (lo n : Nat) (cov : Finset Nat) (x : Nat) : Prop :=
  lo ≤ x ∧ x < lo + n ∧ x ∉ cov

instance (lo n : Nat) (cov : Finset Nat) (x : Nat) : Decidable (winUncov lo n cov x) :=
  inferInstanceAs (Decidable (lo ≤ x ∧ x < lo + n ∧ x ∉ cov))

/-- `[s, e]` is a maximal run of the predicate `u`: non-empty, wholly inside
`u`, and extendable in neither direction. -/
def MaxRunP (u : Nat → Prop) (s e : Nat) : Prop :=
  s ≤ e ∧ (∀ x, s ≤ x → x ≤ e → u x) ∧ (s = 0 ∨ ¬ u (s - 1)) ∧ ¬ u (e + 1)

theorem mem_uncoveredList (lo n : Nat) (cov : Finset Nat) (x : Nat) :
    x ∈ uncoveredList lo n cov ↔ winUncov lo n cov x := by
  simp [uncoveredList, List.mem_filter, List.mem_range'_1, winUncov, and_assoc]

theorem pairwise_uncoveredList (lo n : Nat) (cov : Finset Nat) :
    (uncoveredList lo n cov).Pairwise (· < ·) :=
  (List.pairwise_lt_range' lo n).filter _

theorem mergeLoop_mem (u : Nat → Prop) :
    ∀ (l : List Nat) (gs ge : Nat), gs ≤ ge →
      (ge :: l).Pairwise (· < ·) →
      (∀ x ∈ l, u x) →
      (∀ x, ge < x → u x → x ∈ l) →
      (∀ x, gs ≤ x → x ≤ ge → u x) →
      (gs = 0 ∨ ¬ u (gs - 1)) →
      ∀ s e len, ((s, e, len) ∈ mergeLoop gs ge l ↔
        (len = e - s + 1 ∧ gs ≤ s ∧ MaxRunP u s e)) := by
  intro l
  induction l with
  | nil =>
    intro gs ge hge hpw hmem hcompl hfull hleft s e len
    simp only [mergeLoop, List.mem_singleton, Prod.mk.injEq, MaxRunP]
    constructor
    · rintro ⟨rfl, rfl, rfl⟩
      refine ⟨rfl, le_refl s, hge, fun x hx1 hx2 => hfull x hx1 hx2, hleft, ?_⟩
      intro hu
      exact absurd (hcompl (e + 1) (by omega) hu) (List.not_mem_nil _)
    · rintro ⟨hlen, hgs, hse, hall, hl, hr⟩
      have hsle : s ≤ ge := by
        by_contra hgt
        exact absurd (hcompl s (by omega) (hall s le_rfl hse)) (List.not_mem_nil _)
      have hseq : s = gs := by
        by_contra hne
        have hslt : gs < s := by omega
        have hus : u (s - 1) := hfull (s - 1) (by omega) (by omega)
        rcases hl with h0 | hnu
        · omega
        · exact hnu hus
      have heeq : e = ge := by
        by_contra hne
        rcases Nat.lt_or_ge e ge with hlt | hge2
        · exact hr (hfull (e + 1) (by omega) (by omega))
        · have hgt : ge < e := by omega
          exact absurd (hcompl e hgt (hall e (by omega) le_rfl)) (List.not_mem_nil _)
      exact ⟨hseq, heeq, by omega⟩
  | cons a rest ih =>
    intro gs ge hge hpw hmem hcompl hfull hleft s e len
    have hgea : ge < a := (List.pairwise_cons.mp hpw).1 a (by simp)
    have hpw' : (a :: rest).Pairwise (· < ·) := (List.pairwise_cons.mp hpw).2
    have harest : ∀ x ∈ rest, a < x := fun x hx => (List.pairwise_cons.mp hpw').1 x hx
    have hcompl' : ∀ x, a < x → u x → x ∈ rest := by
      intro x hx hu
      rcases List.mem_cons.mp (hcompl x (by omega) hu) with h | h
      · omega
      · exact h
    by_cases ha : a = ge + 1
    · simp only [mergeLoop, if_pos ha]
      refine ih gs a (by omega) hpw'
        (fun x hx => hmem x (List.mem_cons_of_mem a hx)) hcompl' ?_ hleft s e len
      intro x h1 h2
      by_cases hxge : x ≤ ge
      · exact hfull x h1 hxge
      · have : x = a := by omega
        exact this ▸ hmem a (by simp)
    · simp only [mergeLoop, if_neg ha, List.mem_cons, Prod.mk.injEq]
      have ha2 : ge + 1 < a := by omega
      have hnue : ¬ u (ge + 1) := by
        intro hu
        rcases List.mem_cons.mp (hcompl (ge + 1) (by omega) hu) with h | h
        · omega
        · exact absurd (harest _ h) (by omega)
      have hrec := ih a a le_rfl hpw'
        (fun x hx => hmem x (List.mem_cons_of_mem a hx)) hcompl'
        (fun x h1 h2 => (by omega : x = a) ▸ hmem a (by simp))
        (by
          right
          intro hu
          rcases List.mem_cons.mp (hcompl (a - 1) (by omega) hu) with h | h
          · omega
          · exact absurd (harest _ h) (by omega))
        s e len
      constructor
      · rintro (⟨rfl, rfl, rfl⟩ | hmem2)
        · exact ⟨rfl, le_refl s, hge, fun x h1 h2 => hfull x h1 h2, hleft, hnue⟩
        · obtain ⟨hlen, has, hmax⟩ := hrec.mp hmem2
          exact ⟨hlen, by omega, hmax⟩
      · rintro ⟨hlen, hgs, hse, hall, hl, hr⟩
        by_cases hsge : s ≤ ge
        · left
          have hseq : s = gs := by
            by_contra hne
            have hslt : gs < s := by omega
            have hus : u (s - 1) := hfull (s - 1) (by omega) (by omega)
            rcases hl with h0 | hnu
            · omega
            · exact hnu hus
          have heeq : e = ge := by
            by_contra hne
            rcases Nat.lt_or_ge e ge with hlt | hge2
            · exact hr (hfull (e + 1) (by omega) (by omega))
            · exact hnue (hall (ge + 1) (by omega) (by omega))
          exact ⟨hseq, heeq, by omega⟩
        · right
          have hsa : a ≤ s := by
            have hus : u s := hall s le_rfl hse
            rcases List.mem_cons.mp (hcompl s (by omega) hus) with h | h
            · omega
            · exact le_of_lt (harest _ h)
          exact hrec.mpr ⟨hlen, hsa, hse, hall, hl, hr⟩

theorem computeGaps_mem (lo n : Nat) (cov : Finset Nat) (s e len : Nat) :
    ((s, e, len) ∈ computeGaps (uncoveredList lo n cov) ↔
      (len = e - s + 1 ∧ MaxRunP (winUncov lo n cov) s e)) := by
  have hpw := pairwise_uncoveredList lo n cov
  cases hl : uncoveredList lo n cov with
  | nil =>
    simp only [computeGaps, List.not_mem_nil, false_iff, not_and]
    rintro hlen ⟨hse, hall, _, _⟩
    have hus : winUncov lo n cov s := hall s le_rfl hse
    have : s ∈ uncoveredList lo n cov := (mem_uncoveredList lo n cov s).mpr hus
    rw [hl] at this
    exact absurd this (List.not_mem_nil _)
  | cons a rest =>
    rw [hl] at hpw
    have hmemiff : ∀ x, x ∈ a :: rest ↔ winUncov lo n cov x := by
      intro x
      rw [← hl]
      exact mem_uncoveredList lo n cov x
    have harest : ∀ x ∈ rest, a < x := fun x hx => (List.pairwise_cons.mp hpw).1 x hx
    have hml := mergeLoop_mem (winUncov lo n cov) rest a a le_rfl hpw
      (fun x hx => (hmemiff x).mp (List.mem_cons_of_mem a hx))
      (by
        intro x hx hu
        rcases List.mem_cons.mp ((hmemiff x).mpr hu) with h | h
        · omega
        · exact h)
      (fun x h1 h2 => (by omega : x = a) ▸ (hmemiff a).mp (by simp))
      (by
        by_cases ha0 : a = 0
        · exact Or.inl ha0
        · right
          intro hu
          rcases List.mem_cons.mp ((hmemiff (a - 1)).mpr hu) with h | h
          · omega
          · exact absurd (harest _ h) (by omega))
      s e len
    simp only [computeGaps]
    rw [hml]
    constructor
    · rintro ⟨hlen, _, hmax⟩
      exact ⟨hlen, hmax⟩
    · rintro ⟨hlen, hmax⟩
      refine ⟨hlen, ?_, hmax⟩
      obtain ⟨hse, hall, _, _⟩ := hmax
      have hus : winUncov lo n cov s := hall s le_rfl hse
      rcases List.mem_cons.mp ((hmemiff s).mpr hus) with h | h
      · omega
      · exact le_of_lt (harest _ h)

theorem mem_insertGapSorted (g x : Nat × Nat × Nat) :
    ∀ l, (x ∈ insertGapSorted g l ↔ x = g ∨ x ∈ l) := by
  intro l
  induction l with
  | nil => simp [insertGapSorted]
  | cons h t ih =>
    simp only [insertGapSorted]
    split
    · simp
    · simp only [List.mem_cons, ih]
      tauto

theorem mem_sortGapsDesc (x : Nat × Nat × Nat) :
    ∀ l, (x ∈ sortGapsDesc l ↔ x ∈ l) := by
  intro l
  induction l with
  | nil => simp [sortGapsDesc]
  | cons g rest ih =>
    simp only [sortGapsDesc, mem_insertGapSorted, ih, List.mem_cons]

theorem pairwise_insertGapSorted (g : Nat × Nat × Nat) :
    ∀ l, l.Pairwise (fun x y => y.2.2 ≤ x.2.2) →
      (insertGapSorted g l).Pairwise (fun x y => y.2.2 ≤ x.2.2) := by
  intro l
  induction l with
  | nil => intro _; simp [insertGapSorted]
  | cons h t ih =>
    intro hpw
    obtain ⟨hhd, htl⟩ := List.pairwise_cons.mp hpw
    simp only [insertGapSorted]
    split
    · next hle =>
      refine List.pairwise_cons.mpr ⟨?_, hpw⟩
      intro y hy
      rcases List.mem_cons.mp hy with rfl | hyt
      · exact hle
      · exact le_trans (hhd y hyt) hle
    · next hgt =>
      refine List.pairwise_cons.mpr ⟨?_, ih htl⟩
      intro y hy
      rcases (mem_insertGapSorted g y t).mp hy with rfl | hyt
      · omega
      · exact hhd y hyt

theorem pairwise_sortGapsDesc :
    ∀ l, (sortGapsDesc l).Pairwise (fun x y => y.2.2 ≤ x.2.2) := by
  intro l
  induction l with
  | nil => simp [sortGapsDesc]
  | cons g rest ih => exact pairwise_insertGapSorted g _ ih

/-! ## Gap attribution (`parse_drcov_file`, lines 336–348) -/

/-- Lines 339–347: scan `sorted_exports` for the first entry with
`faddr <= start` whose successor's address exceeds `start` (or the last entry
when nothing follows); `"unknown"` if the scan finds nothing. -/
def attributeGap : List (List Char × Nat) → Nat → List Char
  | [], _ => "unknown".toList
  | (fname, faddr) :: rest, s =>
    if faddr ≤ s then
      match rest with
      | [] => fname
      | (_, gaddr) :: _ => if s < gaddr then fname else attributeGap rest s
    else attributeGap rest s

/-- The spec's words, for the refinement comparison: "the highest-address
export `≤ gap.start`" of the address-sorted export table. -/
def specContainingExport (sortedExports : List (List Char × Nat)) (s : Nat) :
    Option (List Char × Nat) :=
  (sortedExports.filter (fun p => p.2 ≤ s)).getLast?

theorem attributeGap_correct :
    ∀ (l : List (List Char × Nat)) (s : Nat),
      l.Pairwise (fun p q => p.2 < q.2) →
      (∃ p ∈ l, p.2 ≤ s) →
      ∃ q, q ∈ l ∧ q.2 ≤ s ∧ attributeGap l s = q.1 ∧
        (∀ p ∈ l, p.2 ≤ s → p.2 ≤ q.2) ∧ specContainingExport l s = some q := by
  intro l
  induction l with
  | nil =>
    rintro s _ ⟨p, hp, _⟩
    exact absurd hp (List.not_mem_nil _)
  | cons hd rest ih =>
    rintro s hpw ⟨p, hp, hps⟩
    obtain ⟨fname, faddr⟩ := hd
    have hrest : ∀ q ∈ rest, faddr < q.2 := (List.pairwise_cons.mp hpw).1
    have hpw' : rest.Pairwise (fun p q => p.2 < q.2) := (List.pairwise_cons.mp hpw).2
    by_cases hf : faddr ≤ s
    · cases rest with
      | nil =>
        refine ⟨(fname, faddr), by simp, hf, ?_, ?_, ?_⟩
        · simp [attributeGap, hf]
        · intro p hp hps
          rcases List.mem_cons.mp hp with rfl | h
          · exact le_rfl
          · exact absurd h (List.not_mem_nil _)
        · simp [specContainingExport, List.filter_cons, hf]
      | cons nxt r2 =>
        obtain ⟨gname, gaddr⟩ := nxt
        by_cases hg : s < gaddr
        · have hfilter : List.filter (fun p => decide (p.2 ≤ s)) ((gname, gaddr) :: r2) = [] := by
            rw [List.filter_eq_nil_iff]
            intro p hp
            rcases List.mem_cons.mp hp with rfl | h
            · simp; omega
            · have h2 := (List.pairwise_cons.mp hpw').1 p h
              simp at h2 ⊢
              omega
          refine ⟨(fname, faddr), by simp, hf, ?_, ?_, ?_⟩
          · simp [attributeGap, hf, hg]
          · intro p hp hps
            rcases List.mem_cons.mp hp with rfl | h
            · exact le_rfl
            · exfalso
              rcases List.mem_cons.mp h with rfl | h2
              · simp only at hps
                omega
              · have h3 := (List.pairwise_cons.mp hpw').1 p h2
                simp only at h3
                omega
          · simp [specContainingExport, List.filter_cons, hf, hfilter]
        · have hga : gaddr ≤ s := by omega
          obtain ⟨q, hq1, hq2, hq3, hq4, hq5⟩ :=
            ih s hpw' ⟨(gname, gaddr), by simp, hga⟩
          refine ⟨q, List.mem_cons_of_mem _ hq1, hq2, ?_, ?_, ?_⟩
          · simp only [attributeGap, if_pos hf, if_neg hg]
            exact hq3
          · intro p hp hps
            rcases List.mem_cons.mp hp with rfl | h
            · exact le_trans (le_of_lt (hrest (gname, gaddr) (by simp)))
                (hq4 (gname, gaddr) (by simp) hga)
            · exact hq4 p h hps
          · unfold specContainingExport at hq5 ⊢
            rw [List.filter_cons,
                if_pos (show (decide ((fname, faddr).2 ≤ s)) = true by simp [hf]),
                getLast?_cons_or, hq5]
            rfl
    · exfalso
      rcases List.mem_cons.mp hp with rfl | h
      · exact hf hps
      · exact hf (le_trans (le_of_lt (hrest p h)) hps)

deriving instance DecidableEq for Except

/-! ## Claim theorems -/

/-- Claim C1: decoding the binary record stream parses each 8-byte
little-endian record as a uint32 offset (bytes 0–3), a uint16 size
(bytes 4–5) and a uint16 module id (bytes 6–7): when the binary suffix
encodes `N` well-formed records and the header announces `bb_count = N`,
the decoder returns exactly those `N` records, in encoding order. -/
theorem record_stream_roundtrip (records : List BBRec)
    (h : ∀ bb ∈ records, bb.offset < 4294967296 ∧ bb.size < 65536 ∧ bb.module_id < 65536) :
    decodeRecords records.length (records.flatMap encodeRecord) = records :=
  decodeRecords_encode records h

def roundtripRecords : List BBRec :=
  [{ module_id := 7, offset := 4096, size := 16 },
   { module_id := 65535, offset := 4294967295, size := 65535 },
   { module_id := 0, offset := 0, size := 0 }]

theorem record_stream_roundtrip_witness :
    (∀ bb ∈ roundtripRecords,
      bb.offset < 4294967296 ∧ bb.size < 65536 ∧ bb.module_id < 65536) ∧
    decodeRecords roundtripRecords.length (roundtripRecords.flatMap encodeRecord) =
      roundtripRecords :=
  ⟨by decide, record_stream_roundtrip roundtripRecords (by decide)⟩

/-- Claim C2: for an export name present in the export table, the hit test is a
strict 256-byte window around its rva: hit iff some target basic block's start
offset `o` has `|o - rva| < 256`; all block starts at distance `≥ 256` (so in
particular a nearest one at exactly 256) give NOT hit, a block start at
distance 255 gives hit. -/
theorem export_hit_rule (exportAddrs : List (List Char × Nat)) (target_bbs : List BBRec)
    (fn : List Char) (rva : Nat) (hlook : lookupName fn exportAddrs = some rva) :
    (funcHit target_bbs rva = true ↔
      ∃ bb ∈ target_bbs, ((bb.offset : Int) - (rva : Int)).natAbs < 256) ∧
    ((∀ bb ∈ target_bbs, 256 ≤ ((bb.offset : Int) - (rva : Int)).natAbs) →
      funcHit target_bbs rva = false) ∧
    ((∃ bb ∈ target_bbs, ((bb.offset : Int) - (rva : Int)).natAbs = 255) →
      funcHit target_bbs rva = true) := by
  have hiff : funcHit target_bbs rva = true ↔
      ∃ bb ∈ target_bbs, ((bb.offset : Int) - (rva : Int)).natAbs < 256 := by
    simp [funcHit, List.any_eq_true]
  refine ⟨hiff, ?_, ?_⟩
  · intro hfar
    cases hfh : funcHit target_bbs rva with
    | false => rfl
    | true =>
      obtain ⟨bb, hbb, hlt⟩ := hiff.mp hfh
      exact absurd hlt (by have := hfar bb hbb; omega)
  · rintro ⟨bb, hbb, heq⟩
    exact hiff.mpr ⟨bb, hbb, by omega⟩

theorem export_hit_rule_witness :
    lookupName "Aud_InitDll".toList [("Aud_InitDll".toList, 256)] = some 256 ∧
    funcHit [{ module_id := 0, offset := 511, size := 4 }] 256 = true :=
  ⟨rfl,
   (export_hit_rule [("Aud_InitDll".toList, 256)]
      [{ module_id := 0, offset := 511, size := 4 }] "Aud_InitDll".toList 256 rfl).2.2
     ⟨{ module_id := 0, offset := 511, size := 4 }, by decide, by decide⟩⟩

/-- The covered set of the spec's gap-correctness scenario:
`{1000, 1001, 1005, 1006, 1007}`. -/
def exampleCovered : Finset Nat := {1000, 1001, 1005, 1006, 1007}

/-- Claim C3: the gap list consists exactly of the maximal runs of consecutive
offsets inside the application-code window `[lo, lo + n)` that are absent from
the covered set, ordered with lengths descending; concretely, window
`[1000, 1010)` with covered set `{1000, 1001, 1005, 1006, 1007}` yields
`[(1002, 1004, 3), (1008, 1009, 2)]`. -/
theorem gap_list_spec (lo n : Nat) (cov : Finset Nat) :
    (∀ s e len, ((s, e, len) ∈ sortGapsDesc (computeGaps (uncoveredList lo n cov)) ↔
      (len = e - s + 1 ∧ MaxRunP (winUncov lo n cov) s e))) ∧
    (sortGapsDesc (computeGaps (uncoveredList lo n cov))).Pairwise
      (fun g h => h.2.2 ≤ g.2.2) ∧
    sortGapsDesc (computeGaps (uncoveredList 1000 10 exampleCovered)) =
      [(1002, 1004, 3), (1008, 1009, 2)] := by
  refine ⟨?_, pairwise_sortGapsDesc _, by decide⟩
  intro s e len
  rw [mem_sortGapsDesc, computeGaps_mem]

theorem gap_list_spec_witness :
    sortGapsDesc (computeGaps (uncoveredList 1000 10 exampleCovered)) =
      [(1002, 1004, 3), (1008, 1009, 2)] :=
  (gap_list_spec 0 0 ∅).2.2

/-- Claim C7: record decoding stops after exactly
`min(bb_count, floor(remaining_bytes / 8))` records; a trailing incomplete
record of fewer than 8 bytes is silently dropped (appending it changes
nothing) and decoding is total — no error is raised. -/
theorem decode_stop_rule (bbCount : Nat) (data : List Nat) :
    (decodeRecords bbCount data).length = min bbCount (data.length / 8) ∧
    (∀ extra : List Nat, data.length % 8 = 0 → extra.length < 8 →
      decodeRecords bbCount (data ++ extra) = decodeRecords bbCount data) :=
  ⟨decodeRecords_length bbCount data,
   fun extra h1 h2 => decodeRecords_drop_tail bbCount data extra h1 h2⟩

theorem decode_stop_rule_witness :
    (decodeRecords 3 (List.replicate 16 0)).length =
      min 3 ((List.replicate 16 (0 : Nat)).length / 8) ∧
    decodeRecords 3 (List.replicate 16 0 ++ [1, 2, 3]) =
      decodeRecords 3 (List.replicate 16 0) :=
  ⟨(decode_stop_rule 3 (List.replicate 16 0)).1,
   (decode_stop_rule 3 (List.replicate 16 0)).2 [1, 2, 3] (by decide) (by decide)⟩

/-- Claim C8: `CoveredByteSet` insertion is idempotent — inserting the same
`(offset, size)` record twice yields a covered set of the same cardinality as
inserting it once, and a byte covered by overlapping or repeated records is
in the set exactly once (membership is insensitive to multiplicity). -/
theorem covered_insert_idempotent (tbs : List BBRec) (r : BBRec) :
    (coveredBytes (tbs ++ [r, r])).card = (coveredBytes (tbs ++ [r])).card ∧
    (∀ x, x ∈ coveredBytes (tbs ++ [r]) ↔
      (x ∈ coveredBytes tbs ∨ (r.offset ≤ x ∧ x < r.offset + r.size))) := by
  constructor
  · have hset : coveredBytes (tbs ++ [r, r]) = coveredBytes (tbs ++ [r]) := by
      ext x
      simp only [mem_coveredBytes, List.mem_append, List.mem_cons, List.mem_singleton,
        List.not_mem_nil, or_false, or_self]
    rw [hset]
  · intro x
    rw [coveredBytes_append]
    simp [mem_coveredBytes]

theorem covered_insert_idempotent_witness :
    (coveredBytes ([{ module_id := 0, offset := 100, size := 4 }] ++
      [{ module_id := 0, offset := 102, size := 4 }, { module_id := 0, offset := 102, size := 4 }])).card =
    (coveredBytes ([{ module_id := 0, offset := 100, size := 4 }] ++
      [{ module_id := 0, offset := 102, size := 4 }])).card :=
  (covered_insert_idempotent [{ module_id := 0, offset := 100, size := 4 }]
    { module_id := 0, offset := 102, size := 4 }).1

/-- Claim C9: for a non-empty (address-sorted, distinct-address) export table
with at least one export at or below `gap.start`, the attributed containing
function is the export with the highest address `≤ gap.start` — equivalently
the sorted entry whose successor's address exceeds `gap.start`, or the last
entry when none follows (the `specContainingExport` refinement). -/
theorem gap_attribution_rule (sortedExports : List (List Char × Nat)) (gapStart : Nat)
    (hsorted : sortedExports.Pairwise (fun p q => p.2 < q.2))
    (hsome : ∃ p ∈ sortedExports, p.2 ≤ gapStart) :
    ∃ q, q ∈ sortedExports ∧ q.2 ≤ gapStart ∧
      attributeGap sortedExports gapStart = q.1 ∧
      (∀ p ∈ sortedExports, p.2 ≤ gapStart → p.2 ≤ q.2) ∧
      specContainingExport sortedExports gapStart = some q :=
  attributeGap_correct sortedExports gapStart hsorted hsome

theorem gap_attribution_rule_witness :
    ∃ q, q ∈ [("Aud_InitDll".toList, 100), ("Aud_GetString".toList, 300)] ∧
      q.2 ≤ 200 ∧
      attributeGap [("Aud_InitDll".toList, 100), ("Aud_GetString".toList, 300)] 200 = q.1 ∧
      (∀ p ∈ [("Aud_InitDll".toList, 100), ("Aud_GetString".toList, 300)],
        p.2 ≤ 200 → p.2 ≤ q.2) ∧
      specContainingExport [("Aud_InitDll".toList, 100), ("Aud_GetString".toList, 300)] 200 =
        some q :=
  gap_attribution_rule [("Aud_InitDll".toList, 100), ("Aud_GetString".toList, 300)] 200
    (by simp) ⟨("Aud_InitDll".toList, 100), by simp, by omega⟩

/-- Claim C6: an input byte stream with no `"BB Table:"` substring makes the
parse fail cleanly: `parse_drcov_file` returns the null report (`.ok none`),
so no downstream stage runs and no exception escapes. -/
theorem missing_marker_null (content : List Nat) (textInfo : Nat × Nat)
    (exportAddrs : List (List Char × Nat))
    (h : ∀ j, (content.drop j).take bbMarkerBytes.length ≠ bbMarkerBytes) :
    parse_drcov_file content textInfo exportAddrs = .ok none := by
  unfold parse_drcov_file
  rw [findSub_eq_none content bbMarkerBytes h]

/-- A short trace prologue (the bytes of `"Mod"`) with no marker anywhere. -/
def markerFreeContent : List Nat := [77, 111, 100]

theorem missing_marker_null_witness :
    parse_drcov_file markerFreeContent (0, 168232) [] = .ok none := by
  refine missing_marker_null markerFreeContent (0, 168232) [] ?_
  intro j
  rcases Nat.lt_or_ge j 3 with hj | hj
  · interval_cases j <;> decide
  · rw [List.drop_eq_nil_of_le (le_trans (by decide) hj)]
    decide

theorem analyze_size_zero (target : Module) (h : target.size = 0) :
    ∀ (bb_count : Nat) (target_bbs : List BBRec) (covered : Finset Nat)
      (textInfo : Nat × Nat) (exportAddrs : List (List Char × Nat)),
      analyze target bb_count target_bbs covered textInfo exportAddrs =
        .error .zeroDivision := by
  intro bb_count target_bbs covered textInfo exportAddrs
  unfold analyze pyDiv
  rw [h]
  norm_num

/-- Claim C10: when the matched target-module row has `end = start` (module
size 0), `parse_drcov_file` raises an uncaught `ZeroDivisionError` at the
unguarded coverage-of-total division `100.0 * len(covered) / dll_size`,
instead of returning a report or a null result. -/
theorem zero_size_division_crash {content : List Nat} {k : Nat} {acc : ModAcc}
    {t : Module} {n : Nat} (textInfo : Nat × Nat)
    (exportAddrs : List (List Char × Nat))
    (hm : findSub content bbMarkerBytes = some k)
    (h1 : scanModules (headerLines content k) = .ok acc)
    (h2 : acc.target = some t)
    (h3 : t.size = 0)
    (h4 : parseBBCount (bbHeaderStr content k) = .ok n) :
    parse_drcov_file content textInfo exportAddrs = .error .zeroDivision := by
  unfold parse_drcov_file
  rw [hm]
  dsimp only
  rw [h1]
  dsimp only
  rw [h2]
  dsimp only
  rw [h4]
  dsimp only
  rw [analyze_size_zero t h3]

/-- A synthetic trace whose single module row (which matches `target.dll`)
has equal start and end addresses. -/
def zeroSizeTrace : List Nat :=
  ("Module Table: version 2, count 1\n0, 0, 0x1000, 0x1000, 0, 0, 0, 0, 0, C:/target.dll\nBB Table: 0 bbs\n").toList.map Char.toNat

theorem zero_size_division_crash_witness :
    parse_drcov_file zeroSizeTrace (0, 168232) [] = .error .zeroDivision :=
  zero_size_division_crash (0, 168232) [] rfl rfl rfl rfl rfl

/-! ### C4/C5: module-resolver counterexamples and amended statements -/

def rowA : List Char := "1, 0, 0x1000, 0x2000, 0, 0, 0, 0, 0, C:/a/target.dll".toList

def rowB : List Char := "2, 0, 0x5000, 0x9000, 0, 0, 0, 0, 0, C:/b/target.dll".toList

def modA : Module :=
  { id := 1, start := 0x1000, end_ := 0x2000, size := 0x1000, path := "C:/a/target.dll".toList }

def modB : Module :=
  { id := 2, start := 0x5000, end_ := 0x9000, size := 0x4000, path := "C:/b/target.dll".toList }

/-- Claim C4 counterexample: two module rows both match the target pattern;
the claim says the FIRST match is kept, but the scan returns the SECOND row's
module — line 166 overwrites `target_module` on every match. -/
theorem first_match_counterexample :
    matchedModuleOfLine rowA = some modA ∧ matchedModuleOfLine rowB = some modB ∧
    modA ≠ modB ∧
    (scanModules [rowA, rowB]).map ModAcc.target = .ok (some modB) := by
  refine ⟨by decide, by decide, by decide, by decide⟩

/-- Claim C4 (amended): when several module-table rows match the target
pattern, the LAST matching row in table order is selected (each match
overwrites the previously selected `TargetModule`). -/
theorem last_match_wins (lines : List (List Char)) (acc : ModAcc)
    (h : scanModules lines = .ok acc) :
    acc.target = (lines.filterMap matchedModuleOfLine).getLast? :=
  scanModules_target_last lines acc h

def accAB : ModAcc :=
  ((scanModules [rowA, rowB]).toOption).getD { modules := [], moduleCount := 0, target := none }

theorem last_match_wins_witness :
    accAB.target = ([rowA, rowB].filterMap matchedModuleOfLine).getLast? :=
  last_match_wins [rowA, rowB] accAB rfl

def rowU : List Char := "3, 0, 0x1000, 0x2000, 0, 0, 0, 0, 0, C:/TARGET.DLL".toList

def modU : Module :=
  { id := 3, start := 0x1000, end_ := 0x2000, size := 0x1000, path := "C:/TARGET.DLL".toList }

/-- Claim C5 counterexample: a well-formed module row whose path is the
upper-case `C:/TARGET.DLL` parses fine but is NOT matched — the substring
test `"target.dll" in path` is case-sensitive, so the scan finds no target. -/
theorem case_sensitivity_counterexample :
    parseModuleRow rowU = some modU ∧
    modU.path = "C:/TARGET.DLL".toList ∧
    moduleMatches modU = false ∧
    (scanModules [rowU]).map ModAcc.target = .ok none := by
  refine ⟨by decide, by decide, by decide, by decide⟩

/-- Claim C5 (amended): a module row is recognized as the target exactly when
its path contains the literal lower-case `"target.dll"` as a contiguous
substring — a case-SENSITIVE test (upper-case variants are not matched). -/
theorem match_is_case_sensitive_substring (m : Module) :
    moduleMatches m = true ↔ ∃ j, (m.path.drop j).take targetLit.length = targetLit := by
  unfold moduleMatches containsSubList
  exact findSub_isSome_iff m.path targetLit

theorem match_is_case_sensitive_substring_witness :
    moduleMatches modA = true :=
  (match_is_case_sensitive_substring modA).mpr ⟨5, by decide⟩

end Drcov








